import Mathlib

/-!
Verification development for the conversational-session memory manager
(`memory_system.py`).  The Python class `MemorySystem` is shallowly embedded:
its in-process state (short-term window, in-memory summary cache) together
with the two persisted JSON files (conversation history, summary log) form a
`MemorySystem` structure, and each method becomes a pure function on it.
Floating-point relevance scores are modelled as exact fractions over `Nat`
(every score produced by the scorer is `matched-term-count / term-count`);
Python's stable `list.sort(key=..., reverse=True)` is modelled by
`List.insertionSort` with the corresponding descending relation, which
computes the same (unique) stable descending reordering.
-/

namespace AgentMemory

/-! ### Configuration constants (`config.py`) -/

def SHORT_TERM_MEMORY_LIMIT : Nat := 10

def LONG_TERM_SUMMARY_THRESHOLD : Nat := 50

def MAX_CONTEXT_TOKENS : Nat := 6000

def RELEVANCE_SEARCH_LIMIT : Nat := 5

/-! ### Term extraction (`MemorySystem._extract_terms`) -/

/-- Accented Spanish letters appearing in the code's stopword set.  They are
word characters for Python's Unicode-aware `\w` class; the embedding covers
the ASCII range plus exactly these letters. -/
def spanishLetters : List Char :=
  ['á', 'é', 'í', 'ó', 'ú', 'ü', 'ñ', 'Á', 'É', 'Í', 'Ó', 'Ú', 'Ü', 'Ñ']

def isSpanishLetter (c : Char) : Bool := spanishLetters.contains c

/-- Model of Python's `\w` character class (used by `re.sub(r'[^\w\s]', ' ', text)`):
ASCII alphanumerics, the underscore, and the accented letters above. -/
def isWordChar (c : Char) : Bool := c.isAlphanum || c == '_' || isSpanishLetter c

/-- Character class named by the spec's pipeline ("alphanumeric"): like
`isWordChar` but without the underscore. -/
def isRefAlnum (c : Char) : Bool := c.isAlphanum || isSpanishLetter c

/-- Model of Python's `str.lower()` on the covered character range. -/
def lowerChar (c : Char) : Char :=
  if c == 'Á' then 'á' else if c == 'É' then 'é' else if c == 'Í' then 'í'
  else if c == 'Ó' then 'ó' else if c == 'Ú' then 'ú' else if c == 'Ü' then 'ü'
  else if c == 'Ñ' then 'ñ' else c.toLower

def lowerString (s : String) : String := String.mk (s.data.map lowerChar)

/-- One character of `re.sub(r'[^\w\s]', ' ', text)`: word characters and
whitespace survive, everything else becomes a space. -/
def cleanseChar (c : Char) : Char := if isWordChar c || c.isWhitespace then c else ' '

/-- Whitespace-run splitting, Python's `str.split()` with no argument:
runs of whitespace separate words, no empty words are produced. -/
def splitWsAux : List Char → List Char → List (List Char)
  | [], acc => if acc.isEmpty then [] else [acc.reverse]
  | c :: cs, acc =>
    if c.isWhitespace then
      if acc.isEmpty then splitWsAux cs [] else acc.reverse :: splitWsAux cs []
    else splitWsAux cs (c :: acc)

def splitWs (l : List Char) : List String := (splitWsAux l []).map String.mk

/-- Stopword set of `_extract_terms` (a Python `set`; only membership matters). -/
def stop_words : List String :=
  ["el", "la", "de", "que", "y", "en", "un", "es", "se", "no", "te", "lo", "le",
   "da", "su", "por", "son", "con", "para", "una", "del", "las", "los", "como",
   "pero", "sus", "fue", "ser", "está", "muy", "más", "todo", "bien", "puede",
   "esto", "sin", "sobre", "también", "me", "hasta", "hay", "donde", "quien",
   "desde", "todos", "durante", "ella", "entre"]

/-- `MemorySystem._extract_terms`: substitute non-word non-space characters by a
space, split on whitespace, keep words longer than 2 that are not stopwords.
Note the function itself does not lowercase; its callers do. -/
def extract_terms (s : String) : List String :=
  let terms := splitWs (s.data.map cleanseChar)
  terms.filter (fun t => 2 < t.length && !(stop_words.contains t))

/-! ### Relevance scores as exact fractions -/

/-- Exact-fraction model of the float `relevance_score`: the represented value
is `num / (den1 + 1)`.  Keeping the denominator as `den1 + 1` makes every
representable score's denominator positive by construction.  Scores computed
by `_calculate_relevance_score` are sums of term frequencies with the common
denominator `len(text_terms)` and are represented unreduced. -/
structure Score where
  num : Nat
  den1 : Nat
deriving DecidableEq, Repr

def Score.den (s : Score) : Nat := s.den1 + 1

/-- Value order on scores (`a ≤ b` as rationals), by cross multiplication. -/
def Score.le (a b : Score) : Prop := a.num * b.den ≤ b.num * a.den

instance (a b : Score) : Decidable (Score.le a b) :=
  inferInstanceAs (Decidable (a.num * b.den ≤ b.num * a.den))

/-- Score of the float literal `1.0` (the initial `relevance_score`). -/
def Score.one : Score := ⟨1, 0⟩

/-- Score of the float literal `0.0`. -/
def Score.zero : Score := ⟨0, 0⟩

/-! ### Data model -/

/-- Interaction record (the dict built by `MemorySystem.add_interaction`).
`tokens_used` is optional because readers use `conv.get('tokens_used', ...)`:
records persisted by other writers may lack the field. -/
structure Interaction where
  timestamp : String
  user_message : String
  assistant_response : String
  metadata : List (String × String)
  tokens_used : Option Nat
  relevance_score : Score
deriving DecidableEq, Repr

/-- Conversation summary record (the dict built by `_create_weekly_summary`);
`date_range` is flattened into its two fields. -/
structure ConversationSummary where
  period : String
  conversation_count : Nat
  date_range_start : String
  date_range_end : String
  main_topics : List String
  total_tokens : Nat
  summary_text : String
deriving DecidableEq, Repr

/-- State of a `MemorySystem` instance together with its two persisted files.
`short_term_memory` and `conversation_summaries` are the in-process fields;
`memory_file` is the contents of `conversation_history.json` and
`summary_file` the contents of `conversation_summaries.json`. -/
structure MemorySystem where
  short_term_memory : List Interaction
  conversation_summaries : List ConversationSummary
  memory_file : List Interaction
  summary_file : List ConversationSummary
deriving DecidableEq, Repr

/-! ### Token estimation and ingestion -/

/-- `MemorySystem._estimate_tokens`: `len(text) // 4`. -/
def estimate_tokens (s : String) : Nat := s.length / 4

/-- Token cost a reader attributes to a record:
`conv.get('tokens_used', self._estimate_tokens(user + assistant))`. -/
def tokenCost (i : Interaction) : Nat :=
  i.tokens_used.getD (estimate_tokens (i.user_message ++ i.assistant_response))

/-- Arguments of one `add_interaction` call; `now` is the value
`datetime.now().isoformat()` observed during the call. -/
structure InteractionInput where
  now : String
  user_message : String
  assistant_response : String
  metadata : List (String × String)
deriving DecidableEq, Repr

/-- Interaction dict built at the top of `add_interaction`. -/
def mkInteraction (inp : InteractionInput) : Interaction :=
  { timestamp := inp.now
    user_message := inp.user_message
    assistant_response := inp.assistant_response
    metadata := inp.metadata
    tokens_used := some (estimate_tokens (inp.user_message ++ inp.assistant_response))
    relevance_score := Score.one }

/-! ### Relevance scoring and search -/

/-- `MemorySystem._calculate_relevance_score`.  Python returns `0.0` when either
term list is empty; otherwise it sums `count(term)/len(text_terms)` over the
query terms present in the text.  All summands share the denominator
`len(text_terms)`, so the sum is represented as one unreduced fraction. -/
def calculate_relevance_score (query_terms : List String) (text : String) : Score :=
  match extract_terms text with
  | [] => Score.zero
  | t :: ts =>
    if query_terms.isEmpty then Score.zero
    else
      ⟨(query_terms.map (fun q =>
          if (t :: ts).contains q then (t :: ts).count q else 0)).sum,
       ts.length⟩

/-- Scored copies of the corpus records, in corpus order: the loop body of
`search_relevant_conversations` (`conv.copy()` with `relevance_score` set,
kept only when the score is strictly positive). -/
def scoredList (all_history : List Interaction) (query : String) : List Interaction :=
  let query_terms := extract_terms (lowerString query)
  all_history.filterMap (fun conv =>
    let text := lowerString (conv.user_message ++ " " ++ conv.assistant_response)
    let score := calculate_relevance_score query_terms text
    if 0 < score.num then some { conv with relevance_score := score } else none)

/-- Descending-score order used by `scored_conversations.sort(key=..., reverse=True)`. -/
def byScoreDesc (a b : Interaction) : Prop :=
  Score.le b.relevance_score a.relevance_score

instance : DecidableRel byScoreDesc :=
  fun a b => inferInstanceAs (Decidable (Score.le b.relevance_score a.relevance_score))

instance : IsTotal Interaction byScoreDesc := by
  constructor
  intro a b
  unfold byScoreDesc Score.le
  exact Nat.le_total _ _

instance : IsTrans Interaction byScoreDesc := by
  constructor
  intro a b c hab hbc
  unfold byScoreDesc Score.le at hab hbc ⊢
  have h2 : c.relevance_score.num * b.relevance_score.den * a.relevance_score.den ≤
      b.relevance_score.num * c.relevance_score.den * a.relevance_score.den :=
    Nat.mul_le_mul_right _ hbc
  have h1 : b.relevance_score.num * a.relevance_score.den * c.relevance_score.den ≤
      a.relevance_score.num * b.relevance_score.den * c.relevance_score.den :=
    Nat.mul_le_mul_right _ hab
  have h3 : c.relevance_score.num * a.relevance_score.den * b.relevance_score.den ≤
      a.relevance_score.num * c.relevance_score.den * b.relevance_score.den := by
    calc c.relevance_score.num * a.relevance_score.den * b.relevance_score.den
        = c.relevance_score.num * b.relevance_score.den * a.relevance_score.den := by ring
      _ ≤ b.relevance_score.num * c.relevance_score.den * a.relevance_score.den := h2
      _ = b.relevance_score.num * a.relevance_score.den * c.relevance_score.den := by ring
      _ ≤ a.relevance_score.num * b.relevance_score.den * c.relevance_score.den := h1
      _ = a.relevance_score.num * c.relevance_score.den * b.relevance_score.den := by ring
  exact Nat.le_of_mul_le_mul_right h3 (Nat.succ_pos b.relevance_score.den1)

/-- `MemorySystem.search_relevant_conversations` over an explicit corpus:
score every record, keep positive scores, stable-sort descending, take the
first `limit`. -/
def search_relevant_conversations
    (all_history : List Interaction) (query : String) (limit : Nat) :
    List Interaction :=
  if all_history.isEmpty then []
  else (List.insertionSort byScoreDesc (scoredList all_history query)).take limit

/-- State-transformer view of the `search_relevant_conversations` method: the
method only reads the persisted log (`MEMORY_FILE_PATH`), scores copies of the
parsed records (`conv.copy()`), and performs no assignment to `self` and no
file write, so the post-state equals the pre-state. -/
def search_relevant_step (st : MemorySystem) (query : String) (limit : Nat) :
    MemorySystem × List Interaction :=
  (st, search_relevant_conversations st.memory_file query limit)

/-! ### Dates: model of `datetime.fromisoformat` and `date.isocalendar` -/

structure Date where
  year : Nat
  month : Nat
  day : Nat
deriving DecidableEq, Repr

def isLeap (y : Nat) : Bool := (y % 4 == 0 && y % 100 != 0) || y % 400 == 0

def daysInMonth (y m : Nat) : Nat :=
  if m == 2 then (if isLeap y then 29 else 28)
  else if [4, 6, 9, 11].contains m then 30
  else 31

def dayOfYear (dt : Date) : Nat :=
  let base := [0, 31, 59, 90, 120, 151, 181, 212, 243, 273, 304, 334].getD (dt.month - 1) 0
  base + dt.day + (if 2 < dt.month && isLeap dt.year then 1 else 0)

/-- Rata-die day number: day 1 is 0001-01-01, which was a Monday. -/
def rataDie (dt : Date) : Nat :=
  365 * (dt.year - 1) + (dt.year - 1) / 4 + (dt.year - 1) / 400
    - (dt.year - 1) / 100 + dayOfYear dt

/-- ISO weekday, Monday = 1 through Sunday = 7. -/
def isoWeekday (dt : Date) : Nat := (rataDie dt - 1) % 7 + 1

/-- Number of ISO weeks (52 or 53) in ISO year `y`. -/
def isoWeekCount (y : Nat) : Nat :=
  let p := fun (x : Nat) => (x + x / 4 + x / 400 - x / 100) % 7
  52 + (if p y == 4 || p (y - 1) == 3 then 1 else 0)

/-- ISO calendar pair `(iso year, iso week number)` of a date, the first two
components of Python's `date.isocalendar()`. -/
def isoWeekPair (dt : Date) : Nat × Nat :=
  let w := (dayOfYear dt + 10 - isoWeekday dt) / 7
  if w == 0 then (dt.year - 1, isoWeekCount (dt.year - 1))
  else if w == 53 && isoWeekCount dt.year == 52 then (dt.year + 1, 1)
  else (dt.year, w)

def isoWeekNumber (dt : Date) : Nat := (isoWeekPair dt).2

def digitVal (c : Char) : Option Nat :=
  if c.isDigit then some (c.toNat - '0'.toNat) else none

/-- Model of `datetime.fromisoformat` restricted to what the grouping needs:
a `YYYY-MM-DD` date with valid month/day and year at least 1, either alone or
followed by a `T`/space separator and a time part (whose digits the grouping
never uses, so the tail is not further validated here).  Any other string is
unparsable and yields `none`, which models the `except` path. -/
def parseISODate (s : String) : Option Date :=
  match s.data with
  | y1 :: y2 :: y3 :: y4 :: '-' :: m1 :: m2 :: '-' :: d1 :: d2 :: rest =>
    match digitVal y1, digitVal y2, digitVal y3, digitVal y4,
          digitVal m1, digitVal m2, digitVal d1, digitVal d2 with
    | some a, some b, some c, some d, some e, some f, some g, some h =>
      let y := ((a * 10 + b) * 10 + c) * 10 + d
      let m := e * 10 + f
      let dd := g * 10 + h
      if 1 ≤ y ∧ 1 ≤ m ∧ m ≤ 12 ∧ 1 ≤ dd ∧ dd ≤ daysInMonth y m ∧
          (rest.isEmpty ∨ rest.head? = some 'T' ∨ rest.head? = some ' ') then
        some ⟨y, m, dd⟩
      else none
    | _, _, _, _, _, _, _, _ => none
  | _ => none

/-- Week key the code computes: `f"{date.year}-W{date.isocalendar()[1]}"` —
the CALENDAR year paired with the ISO week number. -/
def code_week_key (ts : String) : Option String :=
  (parseISODate ts).map (fun dt => toString dt.year ++ "-W" ++ toString (isoWeekNumber dt))

/-- Week key named by the spec: the ISO calendar week, i.e. the ISO year
paired with the ISO week number.  The two keys differ for dates whose ISO
year is not their calendar year (around new year). -/
def iso_week_key (ts : String) : Option String :=
  (parseISODate ts).map (fun dt =>
    toString (isoWeekPair dt).1 ++ "-W" ++ toString (isoWeekPair dt).2)

/-! ### Counter and `most_common` -/

/-- One step of building `collections.Counter`: bump the count of `t`,
first occurrences appended at the tail (Python dicts preserve insertion
order, and `Counter` is a dict). -/
def countFold (counts : List (String × Nat)) (t : String) : List (String × Nat) :=
  match counts with
  | [] => [(t, 1)]
  | (k, n) :: rest => if k == t then (k, n + 1) :: rest else (k, n) :: countFold rest t

/-- `Counter(terms)` as an insertion-ordered association list. -/
def counterList (terms : List String) : List (String × Nat) := terms.foldl countFold []

/-- Descending-count order used by `Counter.most_common` (stable for ties,
which therefore keep first-occurrence order). -/
def byCountDesc (a b : String × Nat) : Prop := b.2 ≤ a.2

instance : DecidableRel byCountDesc := fun _ _ => inferInstanceAs (Decidable (_ ≤ _))

instance : IsTotal (String × Nat) byCountDesc := by
  constructor
  intro a b
  unfold byCountDesc
  exact Nat.le_total _ _

instance : IsTrans (String × Nat) byCountDesc := by
  constructor
  intro a b c hab hbc
  unfold byCountDesc at *
  exact Nat.le_trans hbc hab

/-- `Counter(terms).most_common(n)`: pairs sorted by descending count,
ties in first-insertion order, first `n`. -/
def most_common (terms : List String) (n : Nat) : List (String × Nat) :=
  (List.insertionSort byCountDesc (counterList terms)).take n

/-! ### Summarizer -/

/-- `MemorySystem._create_weekly_summary`. -/
def create_weekly_summary (week : String) (conversations : List Interaction) :
    ConversationSummary :=
  let all_text := String.intercalate " "
    (conversations.map (fun c => c.user_message ++ " " ++ c.assistant_response))
  let terms := extract_terms (lowerString all_text)
  let top_terms := most_common terms 10
  { period := week
    conversation_count := conversations.length
    date_range_start := (conversations.head?.map Interaction.timestamp).getD ""
    date_range_end := (conversations.getLast?.map Interaction.timestamp).getD ""
    main_topics := top_terms.map Prod.fst
    total_tokens := (conversations.map (fun c => c.tokens_used.getD 0)).sum
    summary_text := "Período " ++ week ++ ": " ++ toString conversations.length
      ++ " conversaciones sobre temas como "
      ++ String.intercalate ", " ((top_terms.take 5).map Prod.fst) }

/-- Append `c` to the bucket of key `k`, or open a new bucket at the tail:
dict insertion of `weekly_groups[week_key].append(conv)`. -/
def insertGroup (gs : List (String × List Interaction)) (k : String) (c : Interaction) :
    List (String × List Interaction) :=
  match gs with
  | [] => [(k, [c])]
  | (k', l) :: rest =>
    if k' == k then (k', l ++ [c]) :: rest else (k', l) :: insertGroup rest k c

/-- Loop body of `_group_conversations_by_time`: records whose timestamp does
not parse are skipped (`except Exception: continue`). -/
def groupStep (gs : List (String × List Interaction)) (c : Interaction) :
    List (String × List Interaction) :=
  match code_week_key c.timestamp with
  | none => gs
  | some k => insertGroup gs k c

/-- The `weekly_groups` dict after the first loop of
`_group_conversations_by_time`, in key-insertion order. -/
def weekly_groups (conversations : List Interaction) : List (String × List Interaction) :=
  conversations.foldl groupStep []

/-- `MemorySystem._group_conversations_by_time`: one summary per week bucket
holding at least 5 records, in key-insertion order. -/
def group_conversations_by_time (conversations : List Interaction) :
    List ConversationSummary :=
  ((weekly_groups conversations).filter (fun g => 5 ≤ g.2.length)).map
    (fun g => create_weekly_summary g.1 g.2)

/-- `MemorySystem._create_conversation_summary`: summarize everything but the
last `SHORT_TERM_MEMORY_LIMIT` records (`history[:-SHORT_TERM_MEMORY_LIMIT]`),
skipping entirely when fewer than 10 candidates exist.  Returns the summaries
appended to the summary file by `_save_summaries`. -/
def create_conversation_summary (history : List Interaction) : List ConversationSummary :=
  let conversations_to_summarize := history.take (history.length - SHORT_TERM_MEMORY_LIMIT)
  if conversations_to_summarize.length < 10 then []
  else group_conversations_by_time conversations_to_summarize

/-- `MemorySystem._check_and_summarize`: only fires once the persisted history
reaches `LONG_TERM_SUMMARY_THRESHOLD` records. -/
def check_and_summarize (history : List Interaction) : List ConversationSummary :=
  if LONG_TERM_SUMMARY_THRESHOLD ≤ history.length then create_conversation_summary history
  else []

/-! ### Ingestion (`MemorySystem.add_interaction`) -/

/-- `MemorySystem.add_interaction`: build the record, push it to the window
tail evicting the head beyond the limit, append it to the persisted log, then
run the summarization check (whose output `_save_summaries` appends to the
summary file; the in-memory `conversation_summaries` cache is not refreshed). -/
def add_interaction (st : MemorySystem) (inp : InteractionInput) : MemorySystem :=
  let interaction := mkInteraction inp
  let stm0 := st.short_term_memory ++ [interaction]
  let stm := if SHORT_TERM_MEMORY_LIMIT < stm0.length then stm0.drop 1 else stm0
  let history := st.memory_file ++ [interaction]
  { st with
      short_term_memory := stm
      memory_file := history
      summary_file := st.summary_file ++ check_and_summarize history }

/-! ### Context composition (`MemorySystem.get_intelligent_context`) -/

structure ContextMessage where
  role : String
  content : String
deriving DecidableEq, Repr

def userMsg (i : Interaction) : ContextMessage := ⟨"user", i.user_message⟩

def asstMsg (i : Interaction) : ContextMessage := ⟨"assistant", i.assistant_response⟩

/-- Round `a / b` (with `b > 0`) to the nearest integer, ties to even. -/
def roundHalfEven (a b : Nat) : Nat :=
  let q := a / b
  let r := a % b
  if 2 * r < b then q
  else if b < 2 * r then q + 1
  else if q % 2 == 0 then q else q + 1

def twoDigits (n : Nat) : String := (if n < 10 then "0" else "") ++ toString n

/-- Model of Python's `f"{score:.2f}"` on a non-negative score, computed on
the exact fraction (the binary-float value the code formats can differ from
the exact value in the last decimal in edge cases; no claim depends on this
tag's digits). -/
def formatScore2 (s : Score) : String :=
  let n := roundHalfEven (100 * s.num) s.den
  toString (n / 100) ++ "." ++ twoDigits (n % 100)

def relevanceTag (i : Interaction) : String :=
  "relevant (score: " ++ formatScore2 i.relevance_score ++ ")"

/-- `MemorySystem._get_relevant_summaries`: summaries whose `main_topics`
intersect the query's term set; the texts of the first two are joined. -/
def get_relevant_summaries (summaries : List ConversationSummary) (query : String) :
    String :=
  if summaries.isEmpty then ""
  else
    let query_terms := extract_terms (lowerString query)
    let relevant := (summaries.filter
      (fun s => s.main_topics.any (fun t => query_terms.contains t))).map
      ConversationSummary.summary_text
    String.intercalate " " (relevant.take 2)

/-- Recency loop of `get_intelligent_context`: walk the window newest first;
stop at the first record that would push past the budget; each kept record
has its user message then its assistant response inserted at index 0 (so the
pair lands in the output as assistant-then-user). -/
def recencyLoop :
    List Interaction → List ContextMessage → List String → Nat → Nat →
    List ContextMessage × List String × Nat
  | [], msgs, srcs, cur, _ => (msgs, srcs, cur)
  | i :: rest, msgs, srcs, cur, maxT =>
    let cost := tokenCost i
    if maxT < cur + cost then (msgs, srcs, cur)
    else recencyLoop rest (asstMsg i :: userMsg i :: msgs) ("recent" :: srcs)
      (cur + cost) maxT

/-- Relevance loop of `get_intelligent_context`: skip search results whose
timestamp is already in the window, append the fitting ones (no early stop). -/
def relevanceLoop :
    List Interaction → List Interaction → List ContextMessage → List String → Nat → Nat →
    List ContextMessage × List String × Nat
  | [], _, msgs, srcs, cur, _ => (msgs, srcs, cur)
  | conv :: rest, stm, msgs, srcs, cur, maxT =>
    if stm.any (fun c => c.timestamp == conv.timestamp) then
      relevanceLoop rest stm msgs srcs cur maxT
    else
      let cost := tokenCost conv
      if cur + cost ≤ maxT then
        relevanceLoop rest stm (msgs ++ [userMsg conv, asstMsg conv])
          (srcs ++ [relevanceTag conv]) (cur + cost) maxT
      else relevanceLoop rest stm msgs srcs cur maxT

def summaryMsg (s : String) : ContextMessage :=
  ⟨"system", "Resumen de conversaciones anteriores: " ++ s⟩

/-- `MemorySystem.get_intelligent_context`: recency phase, then (if more than
200 token-units remain after it) the relevance phase over the top-3 search
results, then (if summaries exist and more than 100 token-units remained
after the recency phase — `remaining_tokens` is not recomputed after the
relevance phase) the summary message inserted at index 0.  Returns the
message list and the provenance tags. -/
def get_intelligent_context (st : MemorySystem) (current_message : String)
    (max_tokens : Nat) : List ContextMessage × List String :=
  let r1 := recencyLoop st.short_term_memory.reverse [] [] 0 max_tokens
  let remaining := max_tokens - r1.2.2
  let r2 :=
    if 200 < remaining then
      relevanceLoop (search_relevant_conversations st.memory_file current_message 3)
        st.short_term_memory r1.1 r1.2.1 r1.2.2 max_tokens
    else r1
  if ¬ st.conversation_summaries.isEmpty ∧ 100 < remaining then
    let summary_text := get_relevant_summaries st.conversation_summaries current_message
    if summary_text ≠ "" then
      if r2.2.2 + estimate_tokens summary_text ≤ max_tokens then
        (summaryMsg summary_text :: r2.1, "summary" :: r2.2.1)
      else (r2.1, r2.2.1)
    else (r2.1, r2.2.1)
  else (r2.1, r2.2.1)

/-! ### Derived characterizations of the composer (proved equal to the loops
below; the loops above are the direct transcriptions of the code) -/

/-- Records kept by the recency loop, in walk (newest-first) order. -/
def recencySel : List Interaction → Nat → Nat → List Interaction
  | [], _, _ => []
  | i :: rest, cur, maxT =>
    let cost := tokenCost i
    if maxT < cur + cost then []
    else i :: recencySel rest (cur + cost) maxT

/-- Records kept by the relevance loop, in search-result order. -/
def relevanceSel : List Interaction → List Interaction → Nat → Nat → List Interaction
  | [], _, _, _ => []
  | conv :: rest, stm, cur, maxT =>
    if stm.any (fun c => c.timestamp == conv.timestamp) then
      relevanceSel rest stm cur maxT
    else if cur + tokenCost conv ≤ maxT then
      conv :: relevanceSel rest stm (cur + tokenCost conv) maxT
    else relevanceSel rest stm cur maxT

def costSum (l : List Interaction) : Nat := (l.map tokenCost).sum

/-- Window records included in the context, newest first. -/
def selRecency (st : MemorySystem) (maxT : Nat) : List Interaction :=
  recencySel st.short_term_memory.reverse 0 maxT

/-- Search results included in the context, in descending-score order. -/
def selRelevant (st : MemorySystem) (msg : String) (maxT : Nat) : List Interaction :=
  let c1 := costSum (selRecency st maxT)
  if 200 < maxT - c1 then
    relevanceSel (search_relevant_conversations st.memory_file msg 3)
      st.short_term_memory c1 maxT
  else []

/-- Summary text included in the context, when any. -/
def selSummaryText (st : MemorySystem) (msg : String) (maxT : Nat) : Option String :=
  let c1 := costSum (selRecency st maxT)
  let c2 := c1 + costSum (selRelevant st msg maxT)
  if ¬ st.conversation_summaries.isEmpty ∧ 100 < maxT - c1 then
    let s := get_relevant_summaries st.conversation_summaries msg
    if s ≠ "" ∧ c2 + estimate_tokens s ≤ maxT then some s else none
  else none

/-- Messages the recency phase contributes: interactions in chronological
order, each rendered assistant response first, then user message (the
insert-at-0 order the code produces). -/
def renderRecency (sel : List Interaction) : List ContextMessage :=
  sel.reverse.flatMap (fun i => [asstMsg i, userMsg i])

/-- Messages the relevance phase contributes: user message then assistant
response per included record. -/
def renderRelevant (sel : List Interaction) : List ContextMessage :=
  sel.flatMap (fun c => [userMsg c, asstMsg c])

def renderSummary : Option String → List ContextMessage
  | none => []
  | some s => [summaryMsg s]

def renderSummarySrc : Option String → List String
  | none => []
  | some _ => ["summary"]

/-- Estimated token cost of the included summary unit (of its
`summary_text`, the quantity the code budgets with). -/
def summaryCost : Option String → Nat
  | none => 0
  | some s => estimate_tokens s

/-! ### Space-rejoining of terms (for the idempotence property) -/

/-- Join character lists with single spaces: `" ".join(...)` at `List Char`
level. -/
def joinChars : List (List Char) → List Char
  | [] => []
  | [t] => t
  | t :: t' :: ts => t ++ ' ' :: joinChars (t' :: ts)

/-- Python's `" ".join(terms)`. -/
def joinSpace (ts : List String) : String :=
  String.mk (joinChars (ts.map String.data))

/-! ### Reference (spec-side) definitions -/

/-- Reference pipeline stated by the spec for `extract_terms`: lowercase,
replace every non-alphanumeric non-whitespace character (underscore
included) by a space, split on whitespace, drop length-2-or-shorter terms
and stopwords. -/
def ref_extract_terms (s : String) : List String :=
  let low := lowerString s
  let cleaned := low.data.map (fun c => if isRefAlnum c || c.isWhitespace then c else ' ')
  (splitWs cleaned).filter (fun t => 2 < t.length && !(stop_words.contains t))

/-- First-occurrence deduplication step. -/
def firstKeysStep (acc : List String) (k : String) : List String :=
  if acc.contains k then acc else acc ++ [k]

/-- Keys in order of first occurrence (the iteration order of a Python dict
built by inserting these keys in sequence). -/
def firstKeys (ks : List String) : List String := ks.foldl firstKeysStep []

/-- Declarative weekly summary of a bucket: `main_topics` are the bucket
terms ranked by descending true multiplicity (ties in first-occurrence
order), `total_tokens` the sum of the bucket's `tokens_used`. -/
def ref_summary (k : String) (bucket : List Interaction) : ConversationSummary :=
  let all_text := String.intercalate " "
    (bucket.map (fun c => c.user_message ++ " " ++ c.assistant_response))
  let terms := extract_terms (lowerString all_text)
  let ranked := List.insertionSort byCountDesc
    ((firstKeys terms).map (fun t => (t, terms.count t)))
  { period := k
    conversation_count := bucket.length
    date_range_start := (bucket.head?.map Interaction.timestamp).getD ""
    date_range_end := (bucket.getLast?.map Interaction.timestamp).getD ""
    main_topics := (ranked.take 10).map Prod.fst
    total_tokens := (bucket.map (fun c => c.tokens_used.getD 0)).sum
    summary_text := "Período " ++ k ++ ": " ++ toString bucket.length
      ++ " conversaciones sobre temas como "
      ++ String.intercalate ", " ((ranked.take 5).map Prod.fst) }

/-- Bucket of a week key: the candidates carrying that key, in log order. -/
def bucketOf (cands : List Interaction) (k : String) : List Interaction :=
  cands.filter (fun c => code_week_key c.timestamp == some k)

/-- Declarative description of the code's grouping: one summary per distinct
week key (first-occurrence order) whose bucket has at least 5 records. -/
def ref_weekly_summaries (cands : List Interaction) : List ConversationSummary :=
  (firstKeys (cands.filterMap (fun c => code_week_key c.timestamp))).filterMap
    (fun k =>
      if 5 ≤ (bucketOf cands k).length then some (ref_summary k (bucketOf cands k))
      else none)

/-- Grouping as the claim states it: by ISO calendar week (`iso_week_key`)
instead of the code's calendar-year/ISO-week-number key. -/
def spec_weekly_summaries (cands : List Interaction) : List ConversationSummary :=
  (firstKeys (cands.filterMap (fun c => iso_week_key c.timestamp))).filterMap
    (fun k =>
      let b := cands.filter (fun c => iso_week_key c.timestamp == some k)
      if 5 ≤ b.length then some (create_weekly_summary k b) else none)

/-! ### Concrete fixtures for counterexamples and witnesses -/

def emptySystem : MemorySystem := ⟨[], [], [], []⟩

def sampleInput : InteractionInput := ⟨"2025-01-01T10:00:00", "hola", "mundo amigo", []⟩

/-- State after one `add_interaction("hola", "mundo amigo")` on a fresh system. -/
def stPair : MemorySystem := add_interaction emptySystem sampleInput

/-- Input whose combined text has fewer than 4 characters, hence estimated
token cost 0. -/
def tinyInput : InteractionInput := ⟨"2025-01-01T10:00:01", "a", "b", []⟩

def stTiny : MemorySystem := add_interaction emptySystem tinyInput

def mkStamped (ts : String) : Interaction := ⟨ts, "x", "y", [], some 1, Score.one⟩

/-- History of 20 records whose first 10 (the summarization candidates) hold
5 records in ISO week 2025-W1 — 3 timestamped 2024-12-30 and 2 timestamped
2025-01-02, which the code keys as "2024-W1" and "2025-W1" respectively —
and 5 records in week 2025-W20. -/
def hist20 : List Interaction :=
  List.replicate 3 (mkStamped "2024-12-30T10:00:00")
    ++ List.replicate 2 (mkStamped "2025-01-02T10:00:00")
    ++ List.replicate 5 (mkStamped "2025-05-12T10:00:00")
    ++ List.replicate 10 (mkStamped "2025-06-01T10:00:00")

def recA : Interaction := ⟨"2025-03-01T10:00:00", "clima bueno hoy", "", [], some 4, Score.one⟩

def recB : Interaction := ⟨"2025-03-02T10:00:00", "clima malo hoy", "", [], some 4, Score.one⟩

def histAB : List Interaction := [recA, recB]

/-- Scored copies of `recA`/`recB` for the query "clima": one match among
three terms. -/
def recA' : Interaction := { recA with relevance_score := ⟨1, 2⟩ }

def recB' : Interaction := { recB with relevance_score := ⟨1, 2⟩ }

/-! ## Theorems -/

/-! ### C1: the short-term window is a FIFO of the most recent records -/

theorem short_term_step (w M : List Interaction) (i : Interaction)
    (h : w = M.drop (M.length - SHORT_TERM_MEMORY_LIMIT)) :
    (if SHORT_TERM_MEMORY_LIMIT < (w ++ [i]).length then (w ++ [i]).drop 1 else w ++ [i])
      = (M ++ [i]).drop ((M ++ [i]).length - SHORT_TERM_MEMORY_LIMIT) := by
  have hlw : w.length = M.length - (M.length - SHORT_TERM_MEMORY_LIMIT) := by
    rw [h, List.length_drop]
  have hL : SHORT_TERM_MEMORY_LIMIT = 10 := rfl
  have happ : (w ++ [i]).length = w.length + 1 := by simp
  have happM : (M ++ [i]).length = M.length + 1 := by simp
  rw [happM]
  by_cases hM : M.length < SHORT_TERM_MEMORY_LIMIT
  · have hcond : ¬ SHORT_TERM_MEMORY_LIMIT < (w ++ [i]).length := by omega
    rw [if_neg hcond]
    have h1 : M.length + 1 - SHORT_TERM_MEMORY_LIMIT = 0 := by omega
    have h0 : M.length - SHORT_TERM_MEMORY_LIMIT = 0 := by omega
    rw [h1, List.drop_zero, h, h0, List.drop_zero]
  · push_neg at hM
    have hcond : SHORT_TERM_MEMORY_LIMIT < (w ++ [i]).length := by omega
    rw [if_pos hcond]
    have hd1 : (w ++ [i]).drop 1 = w.drop 1 ++ [i] :=
      List.drop_append_of_le_length (by omega)
    have hd2 : (M ++ [i]).drop (M.length + 1 - SHORT_TERM_MEMORY_LIMIT)
        = M.drop (M.length + 1 - SHORT_TERM_MEMORY_LIMIT) ++ [i] :=
      List.drop_append_of_le_length (by omega)
    rw [hd1, hd2, h, List.drop_drop]
    have hdropext : ∀ (x y : Nat), x = y → M.drop x ++ [i] = M.drop y ++ [i] := by
      intro x y hxy
      rw [hxy]
    apply hdropext
    omega

theorem short_term_fold (inputs : List InteractionInput) (st : MemorySystem)
    (M : List Interaction)
    (h : st.short_term_memory = M.drop (M.length - SHORT_TERM_MEMORY_LIMIT)) :
    (inputs.foldl add_interaction st).short_term_memory
      = (M ++ inputs.map mkInteraction).drop
          ((M ++ inputs.map mkInteraction).length - SHORT_TERM_MEMORY_LIMIT) := by
  induction inputs generalizing st M with
  | nil => simpa using h
  | cons inp rest ih =>
    have hstep : (add_interaction st inp).short_term_memory
        = (M ++ [mkInteraction inp]).drop
            ((M ++ [mkInteraction inp]).length - SHORT_TERM_MEMORY_LIMIT) := by
      simp only [add_interaction]
      exact short_term_step st.short_term_memory M (mkInteraction inp) h
    have := ih (add_interaction st inp) (M ++ [mkInteraction inp]) hstep
    simpa [List.append_assoc] using this

/-- C1: for every sequence of `add_interaction` calls starting from an empty
short-term window, the window length never exceeds
`SHORT_TERM_MEMORY_LIMIT`, and after the calls it holds exactly the most
recent `min(limit, number appended)` built interaction records in append
order (tail insertion, head eviction). -/
theorem claim_C1 (st₀ : MemorySystem) (inputs : List InteractionInput)
    (h : st₀.short_term_memory = []) :
    (inputs.foldl add_interaction st₀).short_term_memory.length ≤ SHORT_TERM_MEMORY_LIMIT
    ∧ (inputs.foldl add_interaction st₀).short_term_memory
        = (inputs.map mkInteraction).drop (inputs.length - SHORT_TERM_MEMORY_LIMIT) := by
  have hfold := short_term_fold inputs st₀ [] (by simp [h])
  simp only [List.nil_append, List.length_map] at hfold
  refine ⟨?_, hfold⟩
  rw [hfold, List.length_drop, List.length_map]
  omega

theorem claim_C1_witness :
    ([sampleInput, tinyInput].foldl add_interaction emptySystem).short_term_memory.length
        ≤ SHORT_TERM_MEMORY_LIMIT
    ∧ ([sampleInput, tinyInput].foldl add_interaction emptySystem).short_term_memory
        = ([sampleInput, tinyInput].map mkInteraction).drop
            ([sampleInput, tinyInput].length - SHORT_TERM_MEMORY_LIMIT) :=
  claim_C1 emptySystem [sampleInput, tinyInput] rfl

/-! ### Properties of whitespace splitting and term extraction -/

theorem splitWsAux_ne_nil (l : List Char) :
    ∀ (acc : List Char) (t : List Char), t ∈ splitWsAux l acc → t ≠ [] := by
  induction l with
  | nil =>
    intro acc t ht
    simp only [splitWsAux] at ht
    by_cases hacc : acc.isEmpty
    · simp [hacc] at ht
    · simp [hacc] at ht
      subst ht
      simp only [ne_eq, List.reverse_eq_nil_iff]
      intro hnil
      rw [hnil] at hacc
      exact hacc rfl
  | cons c cs ih =>
    intro acc t ht
    simp only [splitWsAux] at ht
    by_cases hws : c.isWhitespace
    · simp only [hws, if_true] at ht
      by_cases hacc : acc.isEmpty
      · simp only [hacc, if_true] at ht
        exact ih [] t ht
      · simp only [hacc, if_false] at ht
        rcases List.mem_cons.mp ht with h | h
        · subst h
          simp only [ne_eq, List.reverse_eq_nil_iff]
          intro hnil
          rw [hnil] at hacc
          exact hacc rfl
        · exact ih [] t h
    · simp only [hws, if_false] at ht
      exact ih (c :: acc) t ht

theorem splitWsAux_chars (l : List Char) :
    ∀ (acc : List Char) (t : List Char), t ∈ splitWsAux l acc →
      ∀ c ∈ t, c ∈ l ∨ c ∈ acc := by
  induction l with
  | nil =>
    intro acc t ht c hc
    simp only [splitWsAux] at ht
    by_cases hacc : acc.isEmpty
    · simp [hacc] at ht
    · simp [hacc] at ht
      subst ht
      exact Or.inr (List.mem_reverse.mp hc)
  | cons a cs ih =>
    intro acc t ht c hc
    simp only [splitWsAux] at ht
    by_cases hws : a.isWhitespace
    · simp only [hws, if_true] at ht
      by_cases hacc : acc.isEmpty
      · simp only [hacc, if_true] at ht
        rcases ih [] t ht c hc with h | h
        · exact Or.inl (List.mem_cons_of_mem a h)
        · simp at h
      · simp only [hacc, if_false] at ht
        rcases List.mem_cons.mp ht with h | h
        · subst h
          exact Or.inr (List.mem_reverse.mp hc)
        · rcases ih [] t h c hc with h' | h'
          · exact Or.inl (List.mem_cons_of_mem a h')
          · simp at h'
    · simp only [hws, if_false] at ht
      rcases ih (a :: acc) t ht c hc with h | h
      · exact Or.inl (List.mem_cons_of_mem a h)
      · rcases List.mem_cons.mp h with h' | h'
        · exact Or.inl (h' ▸ List.mem_cons_self a cs)
        · exact Or.inr h'

theorem splitWsAux_no_ws (l : List Char) :
    ∀ (acc : List Char), (∀ c ∈ acc, c.isWhitespace = false) →
      ∀ t ∈ splitWsAux l acc, ∀ c ∈ t, c.isWhitespace = false := by
  induction l with
  | nil =>
    intro acc hacc t ht c hc
    simp only [splitWsAux] at ht
    by_cases he : acc.isEmpty
    · simp [he] at ht
    · simp [he] at ht
      subst ht
      exact hacc c (List.mem_reverse.mp hc)
  | cons a cs ih =>
    intro acc hacc t ht c hc
    simp only [splitWsAux] at ht
    by_cases hws : a.isWhitespace
    · simp only [hws, if_true] at ht
      by_cases he : acc.isEmpty
      · simp only [he, if_true] at ht
        exact ih [] (by simp) t ht c hc
      · simp only [he, if_false] at ht
        rcases List.mem_cons.mp ht with h | h
        · subst h
          exact hacc c (List.mem_reverse.mp hc)
        · exact ih [] (by simp) t h c hc
    · simp only [hws, if_false] at ht
      refine ih (a :: acc) ?_ t ht c hc
      intro c' hc'
      rcases List.mem_cons.mp hc' with h' | h'
      · subst h'
        exact Bool.eq_false_iff.mpr hws
      · exact hacc c' h'

theorem splitWsAux_flush (t : List Char) :
    ∀ (rest acc : List Char), (∀ c ∈ t, c.isWhitespace = false) →
      splitWsAux (t ++ rest) acc = splitWsAux rest (t.reverse ++ acc) := by
  induction t with
  | nil =>
    intro rest acc _
    simp
  | cons c t' ih =>
    intro rest acc ht
    have hc : c.isWhitespace = false := ht c (List.mem_cons_self c t')
    simp only [List.cons_append, splitWsAux, hc, Bool.false_eq_true, if_false]
    show splitWsAux (t' ++ rest) (c :: acc) = splitWsAux rest ((c :: t').reverse ++ acc)
    rw [ih rest (c :: acc) (fun c' hc' => ht c' (List.mem_cons_of_mem c hc'))]
    simp [List.append_assoc]

theorem splitWsAux_joinChars (ts : List (List Char))
    (h : ∀ t ∈ ts, t ≠ [] ∧ ∀ c ∈ t, c.isWhitespace = false) :
    splitWsAux (joinChars ts) [] = ts := by
  induction ts with
  | nil => simp [joinChars, splitWsAux]
  | cons t ts' ih =>
    obtain ⟨hne, hnw⟩ := h t (List.mem_cons_self t ts')
    have hrevne : ¬ (t.reverse.isEmpty = true) := by
      simp only [List.isEmpty_iff, List.reverse_eq_nil_iff]
      exact hne
    cases ts' with
    | nil =>
      simp only [joinChars]
      have hflush := splitWsAux_flush t [] [] hnw
      rw [List.append_nil] at hflush
      rw [hflush]
      simp only [splitWsAux, List.append_nil]
      rw [if_neg hrevne, List.reverse_reverse]
    | cons t' ts'' =>
      simp only [joinChars]
      rw [splitWsAux_flush t (' ' :: joinChars (t' :: ts'')) [] hnw, List.append_nil]
      have hsp : (' ' : Char).isWhitespace = true := rfl
      simp only [splitWsAux]
      rw [if_pos hsp, if_neg hrevne, List.reverse_reverse]
      congr 1
      exact ih (fun u hu => h u (List.mem_cons_of_mem t hu))

theorem isWordChar_not_ws {c : Char} (h : isWordChar c = true) :
    c.isWhitespace = false := by
  by_contra hws
  rw [Bool.not_eq_false] at hws
  have hdis : ((c = ' ' ∨ c = '\t') ∨ c = '\r') ∨ c = '\n' := by
    simpa only [Char.isWhitespace, Bool.or_eq_true, decide_eq_true_eq] using hws
  rcases hdis with ((h' | h') | h') | h' <;> (subst h'; exact absurd h (by decide))

theorem cleanseChar_of_word {c : Char} (h : isWordChar c = true) :
    cleanseChar c = c := by
  simp [cleanseChar, h]

theorem mem_map_cleanse {l : List Char} {c : Char} (h : c ∈ l.map cleanseChar) :
    isWordChar c = true ∨ c.isWhitespace = true := by
  obtain ⟨a, _, ha⟩ := List.mem_map.mp h
  by_cases hw : (isWordChar a || a.isWhitespace) = true
  · rw [show cleanseChar a = a by simp [cleanseChar, hw]] at ha
    subst ha
    rw [Bool.or_eq_true] at hw
    exact hw
  · rw [show cleanseChar a = ' ' by simp only [cleanseChar]; rw [if_neg (by simpa using hw)]] at ha
    subst ha
    exact Or.inr rfl

/-- Every term extracted from any string is nonempty and made of word
characters only. -/
theorem extract_terms_chars {s : String} {t : String} (h : t ∈ extract_terms s) :
    t.data ≠ [] ∧ ∀ c ∈ t.data, isWordChar c = true := by
  have hsp : t ∈ splitWs (s.data.map cleanseChar) := List.mem_filter.mp h |>.1
  obtain ⟨tc, htc, hmk⟩ := List.mem_map.mp hsp
  have hdata : t.data = tc := by rw [← hmk]
  constructor
  · rw [hdata]
    exact splitWsAux_ne_nil _ [] tc htc
  · intro c hc
    rw [hdata] at hc
    have hnw : c.isWhitespace = false :=
      splitWsAux_no_ws _ [] (by simp) tc htc c hc
    have hin : c ∈ s.data.map cleanseChar ∨ c ∈ ([] : List Char) :=
      splitWsAux_chars _ [] tc htc c hc
    rcases hin with hin | hin
    · rcases mem_map_cleanse hin with h' | h'
      · exact h'
      · rw [h'] at hnw
        cases hnw
    · simp at hin

/-- Every term extracted from any string is longer than 2 characters and not
a stopword. -/
theorem extract_terms_filtered {s : String} {t : String} (h : t ∈ extract_terms s) :
    2 < t.length ∧ t ∉ stop_words := by
  have hp := List.mem_filter.mp h |>.2
  rw [Bool.and_eq_true] at hp
  obtain ⟨h1, h2⟩ := hp
  refine ⟨of_decide_eq_true h1, ?_⟩
  intro hmem
  rw [Bool.not_eq_eq_eq_not, Bool.not_true] at h2
  have := List.elem_eq_true_of_mem hmem
  rw [show stop_words.elem t = stop_words.contains t from rfl, h2] at this
  cases this

theorem joinChars_chars {ts : List (List Char)} {c : Char} (h : c ∈ joinChars ts) :
    c = ' ' ∨ ∃ t ∈ ts, c ∈ t := by
  induction ts with
  | nil => simp [joinChars] at h
  | cons t ts' ih =>
    cases ts' with
    | nil =>
      simp only [joinChars] at h
      exact Or.inr ⟨t, List.mem_cons_self t [], h⟩
    | cons t' ts'' =>
      simp only [joinChars] at h
      rcases List.mem_append.mp h with h' | h'
      · exact Or.inr ⟨t, List.mem_cons_self _ _, h'⟩
      · rcases List.mem_cons.mp h' with h'' | h''
        · exact Or.inl h''
        · rcases ih h'' with h3 | ⟨u, hu, hcu⟩
          · exact Or.inl h3
          · exact Or.inr ⟨u, List.mem_cons_of_mem t hu, hcu⟩

theorem map_cleanse_id {l : List Char} (h : ∀ c ∈ l, cleanseChar c = c) :
    l.map cleanseChar = l := by
  induction l with
  | nil => rfl
  | cons c cs ih =>
    simp only [List.map_cons]
    rw [h c (List.mem_cons_self c cs), ih (fun c' hc' => h c' (List.mem_cons_of_mem c hc'))]

/-- Splitting the cleansed space-joined word-only terms recovers the terms. -/
theorem splitWs_joinSpace (ts : List String)
    (h : ∀ t ∈ ts, t.data ≠ [] ∧ ∀ c ∈ t.data, isWordChar c = true) :
    splitWs ((joinSpace ts).data.map cleanseChar) = ts := by
  have hdata : (joinSpace ts).data = joinChars (ts.map String.data) := rfl
  have hfix : (joinSpace ts).data.map cleanseChar = joinChars (ts.map String.data) := by
    rw [hdata]
    apply map_cleanse_id
    intro c hc
    rcases joinChars_chars hc with h' | ⟨tc, htc, hctc⟩
    · rw [h']
      rfl
    · obtain ⟨t, ht, hteq⟩ := List.mem_map.mp htc
      exact cleanseChar_of_word ((h t ht).2 c (hteq ▸ hctc))
  rw [hfix]
  unfold splitWs
  rw [splitWsAux_joinChars (ts.map String.data) ?_]
  · rw [List.map_map]
    have : String.mk ∘ String.data = id := funext (fun u => rfl)
    rw [this, List.map_id]
  · intro tc htc
    obtain ⟨t, ht, hteq⟩ := List.mem_map.mp htc
    subst hteq
    exact ⟨(h t ht).1, fun c hc => isWordChar_not_ws ((h t ht).2 c hc)⟩

theorem extract_terms_eq (s : String) :
    extract_terms s = (splitWs (s.data.map cleanseChar)).filter
      (fun t => decide (2 < t.length) && !(stop_words.contains t)) := rfl

theorem not_mem_contains_eq_false {t : String} {l : List String} (h : t ∉ l) :
    l.contains t = false := by
  cases hb : l.contains t
  · rfl
  · exact absurd (List.mem_of_elem_eq_true hb) h

/-- C8: `extract_terms` is idempotent over space-rejoining, and its output
contains no stopword and no term of length at most 2. -/
theorem claim_C8 (s : String) :
    extract_terms (joinSpace (extract_terms s)) = extract_terms s
    ∧ ∀ t ∈ extract_terms s, 2 < t.length ∧ t ∉ stop_words := by
  constructor
  · rw [extract_terms_eq (joinSpace (extract_terms s))]
    rw [splitWs_joinSpace (extract_terms s) (fun t ht => extract_terms_chars ht)]
    rw [List.filter_eq_self.mpr]
    intro t ht
    have h1 := (extract_terms_filtered ht).1
    have h2 := (extract_terms_filtered ht).2
    rw [Bool.and_eq_true]
    exact ⟨decide_eq_true h1,
      by rw [not_mem_contains_eq_false h2]; rfl⟩
  · exact fun t ht => extract_terms_filtered ht

theorem claim_C8_witness :
    extract_terms (joinSpace (extract_terms "Hola mundo, el clima!"))
        = extract_terms "Hola mundo, el clima!"
    ∧ (2 < "mundo".length ∧ "mundo" ∉ stop_words) :=
  ⟨(claim_C8 "Hola mundo, el clima!").1,
   (claim_C8 "Hola mundo, el clima!").2 "mundo" (by decide)⟩

/-! ### C5: `extract_terms` versus the spec's reference pipeline -/

/-- C5 counterexample: on "AB_CD" the code keeps the uppercase token intact
(`_extract_terms` neither lowercases — its callers do — nor strips the
underscore, which Python's `\w` treats as a word character), while the
spec's pipeline lowercases and blanks the underscore, leaving nothing. -/
theorem claim_C5_cex : extract_terms "AB_CD" ≠ ref_extract_terms "AB_CD" := by
  decide

theorem map_id_of_mem {α : Type} (f : α → α) :
    ∀ (l : List α), (∀ c ∈ l, f c = c) → l.map f = l := by
  intro l h
  induction l with
  | nil => rfl
  | cons c cs ih =>
    simp only [List.map_cons]
    rw [h c (List.mem_cons_self c cs), ih (fun c' hc' => h c' (List.mem_cons_of_mem c hc'))]

theorem ref_extract_terms_eq (s : String) :
    ref_extract_terms s = (splitWs ((lowerString s).data.map
        (fun c => if isRefAlnum c || c.isWhitespace then c else ' '))).filter
      (fun t => decide (2 < t.length) && !(stop_words.contains t)) := rfl

/-- C5 (amended): on inputs that are already lowercase and underscore-free,
`extract_terms` coincides with the spec's reference pipeline. -/
theorem claim_C5 (s : String)
    (h : ∀ c ∈ s.data, lowerChar c = c ∧ c ≠ '_') :
    extract_terms s = ref_extract_terms s := by
  rw [extract_terms_eq, ref_extract_terms_eq]
  have hlower : (lowerString s).data = s.data := by
    show s.data.map lowerChar = s.data
    exact map_id_of_mem lowerChar s.data (fun c hc => (h c hc).1)
  rw [hlower]
  have hmap : s.data.map cleanseChar
      = s.data.map (fun c => if isRefAlnum c || c.isWhitespace then c else ' ') := by
    apply List.map_congr_left
    intro c hc
    have hne : (c == '_') = false := by
      simp only [beq_eq_false_iff_ne, ne_eq]
      exact (h c hc).2
    simp only [cleanseChar, isWordChar, isRefAlnum, hne, Bool.or_false, Bool.false_or]
  rw [hmap]

theorem claim_C5_witness :
    extract_terms "hola mundo tres" = ref_extract_terms "hola mundo tres" :=
  claim_C5 "hola mundo tres" (by decide)

/-! ### C9: unparsable timestamps are skipped one by one -/

theorem foldl_groupStep_filter (convs : List Interaction) :
    ∀ gs, convs.foldl groupStep gs
      = (convs.filter (fun c => (parseISODate c.timestamp).isSome)).foldl groupStep gs := by
  induction convs with
  | nil => intro gs; rfl
  | cons c rest ih =>
    intro gs
    by_cases hp : (parseISODate c.timestamp).isSome = true
    · simp only [List.filter_cons, hp, if_true]
      simp only [List.foldl_cons]
      exact ih _
    · have hpf : (parseISODate c.timestamp).isSome = false := by
        simpa using hp
      simp only [List.filter_cons, hpf, Bool.false_eq_true, if_false]
      simp only [List.foldl_cons]
      have hstep : groupStep gs c = gs := by
        cases hpp : parseISODate c.timestamp with
        | none => simp [groupStep, code_week_key, hpp]
        | some d => exact absurd (by simp [hpp]) hp
      rw [hstep]
      exact ih gs

/-- C9: grouping for summarization skips exactly the records whose timestamp
does not parse — the produced summaries equal those for the input with the
unparsable records removed (and the operation is a total function, so one
bad record never aborts it). -/
theorem claim_C9 (conversations : List Interaction) :
    group_conversations_by_time conversations
      = group_conversations_by_time
          (conversations.filter (fun c => (parseISODate c.timestamp).isSome)) := by
  unfold group_conversations_by_time weekly_groups
  rw [foldl_groupStep_filter conversations []]

/-! ### C4: properties of the relevance search -/

def scoreOf (query : String) (c : Interaction) : Score :=
  calculate_relevance_score (extract_terms (lowerString query))
    (lowerString (c.user_message ++ " " ++ c.assistant_response))

theorem scoredList_eq (all_history : List Interaction) (query : String) :
    scoredList all_history query
      = all_history.filterMap (fun conv =>
          if 0 < (scoreOf query conv).num
          then some { conv with relevance_score := scoreOf query conv } else none) := rfl

theorem mem_scoredList {h : List Interaction} {q : String} {r : Interaction}
    (hr : r ∈ scoredList h q) :
    ∃ c ∈ h, 0 < (scoreOf q c).num
      ∧ r = { c with relevance_score := scoreOf q c } := by
  rw [scoredList_eq] at hr
  obtain ⟨c, hc, heq⟩ := List.mem_filterMap.mp hr
  by_cases hpos : 0 < (scoreOf q c).num
  · rw [if_pos hpos] at heq
    exact ⟨c, hc, hpos, (Option.some_inj.mp heq).symm⟩
  · rw [if_neg hpos] at heq
    cases heq

theorem search_eq_take (all_history : List Interaction) (query : String) (limit : Nat) :
    search_relevant_conversations all_history query limit
      = (List.insertionSort byScoreDesc (scoredList all_history query)).take limit := by
  unfold search_relevant_conversations
  by_cases he : all_history.isEmpty = true
  · rw [if_pos he]
    have hnil : all_history = [] := List.isEmpty_iff.mp he
    subst hnil
    rw [scoredList_eq]
    simp [List.insertionSort]
  · rw [if_neg he]

theorem mem_search {h : List Interaction} {q : String} {l : Nat} {r : Interaction}
    (hr : r ∈ search_relevant_conversations h q l) : r ∈ scoredList h q := by
  rw [search_eq_take] at hr
  have h1 : r ∈ List.insertionSort byScoreDesc (scoredList h q) :=
    (List.take_sublist l _).subset hr
  exact ((List.perm_insertionSort byScoreDesc _).mem_iff).mp h1

/-- C4: the search returns at most `limit` records, all strictly positively
scored, in non-increasing score order; it is the `limit`-truncation of the
stable descending sort of the scored corpus, and that sort keeps records
with equal scores in their original corpus order. -/
theorem claim_C4 (query : String) (all_history : List Interaction) (limit : Nat) :
    (search_relevant_conversations all_history query limit).length ≤ limit
    ∧ (∀ r ∈ search_relevant_conversations all_history query limit,
        0 < r.relevance_score.num)
    ∧ List.Sorted byScoreDesc (search_relevant_conversations all_history query limit)
    ∧ search_relevant_conversations all_history query limit
        = (List.insertionSort byScoreDesc (scoredList all_history query)).take limit
    ∧ (∀ a b : Interaction,
        a.relevance_score.num * b.relevance_score.den
          = b.relevance_score.num * a.relevance_score.den →
        [a, b].Sublist (scoredList all_history query) →
        [a, b].Sublist (List.insertionSort byScoreDesc (scoredList all_history query))) := by
  refine ⟨?_, ?_, ?_, search_eq_take all_history query limit, ?_⟩
  · rw [search_eq_take]
    exact List.length_take_le limit _
  · intro r hr
    obtain ⟨c, _, hpos, hcopy⟩ := mem_scoredList (mem_search hr)
    rw [hcopy]
    exact hpos
  · rw [search_eq_take]
    have hs : List.Sorted byScoreDesc
        (List.insertionSort byScoreDesc (scoredList all_history query)) :=
      List.sorted_insertionSort byScoreDesc _
    exact List.Pairwise.sublist (List.take_sublist limit _) hs
  · intro a b heq hsub
    have hle : byScoreDesc a b := le_of_eq heq.symm
    have hp : List.Pairwise byScoreDesc [a, b] := by
      constructor
      · intro b' hb'
        rw [List.mem_singleton] at hb'
        subst hb'
        exact hle
      · exact List.pairwise_singleton _ _
    exact List.sublist_insertionSort hp hsub

theorem claim_C4_witness :
    (search_relevant_conversations histAB "clima" 5).length ≤ 5
    ∧ [recA', recB'].Sublist
        (List.insertionSort byScoreDesc (scoredList histAB "clima")) := by
  refine ⟨(claim_C4 "clima" histAB 5).1, ?_⟩
  refine (claim_C4 "clima" histAB 5).2.2.2.2 recA' recB' (by decide) ?_
  have hsc : scoredList histAB "clima" = [recA', recB'] := by decide
  rw [hsc]

/-! ### C10: the search mutates neither the store nor the window -/

/-- C10: searching leaves the system state (persisted log and short-term
window included) unchanged, and every returned record is a copy of a corpus
record that agrees with it on every field except the transient
`relevance_score`. -/
theorem claim_C10 (st : MemorySystem) (query : String) (limit : Nat) :
    (search_relevant_step st query limit).1 = st
    ∧ ∀ r ∈ (search_relevant_step st query limit).2,
        ∃ c ∈ st.memory_file,
          r.timestamp = c.timestamp ∧ r.user_message = c.user_message
          ∧ r.assistant_response = c.assistant_response
          ∧ r.metadata = c.metadata ∧ r.tokens_used = c.tokens_used := by
  refine ⟨rfl, ?_⟩
  intro r hr
  obtain ⟨c, hc, _, hcopy⟩ := mem_scoredList (mem_search hr)
  exact ⟨c, hc, by rw [hcopy], by rw [hcopy], by rw [hcopy], by rw [hcopy], by rw [hcopy]⟩

theorem claim_C10_witness :
    (search_relevant_step ⟨[], [], histAB, []⟩ "clima" 5).1 = ⟨[], [], histAB, []⟩
    ∧ ∃ c ∈ (⟨[], [], histAB, []⟩ : MemorySystem).memory_file,
        recA'.timestamp = c.timestamp ∧ recA'.user_message = c.user_message
        ∧ recA'.assistant_response = c.assistant_response
        ∧ recA'.metadata = c.metadata ∧ recA'.tokens_used = c.tokens_used :=
  ⟨(claim_C10 ⟨[], [], histAB, []⟩ "clima" 5).1,
   (claim_C10 ⟨[], [], histAB, []⟩ "clima" 5).2 recA' (by decide)⟩

/-! ### The composer loops compute the derived selections -/

theorem recencyLoop_eq (items : List Interaction) :
    ∀ (msgs : List ContextMessage) (srcs : List String) (cur maxT : Nat),
      recencyLoop items msgs srcs cur maxT
        = ((recencySel items cur maxT).reverse.flatMap (fun i => [asstMsg i, userMsg i])
             ++ msgs,
           List.replicate (recencySel items cur maxT).length "recent" ++ srcs,
           cur + costSum (recencySel items cur maxT)) := by
  induction items with
  | nil =>
    intro msgs srcs cur maxT
    simp [recencyLoop, recencySel, costSum]
  | cons i rest ih =>
    intro msgs srcs cur maxT
    by_cases hc : maxT < cur + tokenCost i
    · simp only [recencyLoop, recencySel, hc, if_true]
      simp [costSum]
    · simp only [recencyLoop, recencySel, hc, if_false]
      rw [ih]
      refine congrArg₂ _ ?_ (congrArg₂ _ ?_ ?_)
      · rw [List.reverse_cons, List.flatMap_append]
        simp [List.append_assoc]
      · simp [List.replicate_succ', List.append_assoc]
      · simp [costSum, Nat.add_assoc]

theorem relevanceLoop_eq (convs : List Interaction) :
    ∀ (stm : List Interaction) (msgs : List ContextMessage) (srcs : List String)
      (cur maxT : Nat),
      relevanceLoop convs stm msgs srcs cur maxT
        = (msgs ++ (relevanceSel convs stm cur maxT).flatMap
             (fun c => [userMsg c, asstMsg c]),
           srcs ++ (relevanceSel convs stm cur maxT).map relevanceTag,
           cur + costSum (relevanceSel convs stm cur maxT)) := by
  induction convs with
  | nil =>
    intro stm msgs srcs cur maxT
    simp [relevanceLoop, relevanceSel, costSum]
  | cons conv rest ih =>
    intro stm msgs srcs cur maxT
    by_cases hskip : stm.any (fun c => c.timestamp == conv.timestamp) = true
    · simp only [relevanceLoop, relevanceSel, hskip, if_true]
      exact ih stm msgs srcs cur maxT
    · by_cases hfit : cur + tokenCost conv ≤ maxT
      · simp only [relevanceLoop, relevanceSel, hskip, Bool.false_eq_true, if_false,
          hfit, if_true]
        rw [ih]
        refine congrArg₂ _ ?_ (congrArg₂ _ ?_ ?_)
        · simp [List.append_assoc]
        · simp [List.append_assoc]
        · simp [costSum, Nat.add_assoc]
      · simp only [relevanceLoop, relevanceSel, hskip, Bool.false_eq_true, if_false,
          hfit, if_true]
        exact ih stm msgs srcs cur maxT

/-- The composer's output is the summary message (when selected), then the
recency rendering, then the relevance rendering, with matching provenance
tags. -/
theorem costSum_nil : costSum [] = 0 := rfl

theorem costSum_cons (i : Interaction) (l : List Interaction) :
    costSum (i :: l) = tokenCost i + costSum l := by
  simp [costSum]

theorem context_eq (st : MemorySystem) (msg : String) (maxT : Nat) :
    get_intelligent_context st msg maxT
      = (renderSummary (selSummaryText st msg maxT)
           ++ renderRecency (selRecency st maxT)
           ++ renderRelevant (selRelevant st msg maxT),
         renderSummarySrc (selSummaryText st msg maxT)
           ++ List.replicate (selRecency st maxT).length "recent"
           ++ (selRelevant st msg maxT).map relevanceTag) := by
  have hR := recencyLoop_eq st.short_term_memory.reverse [] [] 0 maxT
  rw [List.append_nil, List.append_nil, Nat.zero_add] at hR
  have hV := relevanceLoop_eq (search_relevant_conversations st.memory_file msg 3)
    st.short_term_memory
    ((recencySel st.short_term_memory.reverse 0 maxT).reverse.flatMap
      (fun i => [asstMsg i, userMsg i]))
    (List.replicate (recencySel st.short_term_memory.reverse 0 maxT).length "recent")
    (costSum (recencySel st.short_term_memory.reverse 0 maxT)) maxT
  simp only [get_intelligent_context, selRecency, selRelevant, selSummaryText,
    renderRecency, renderRelevant]
  rw [hR]
  dsimp only
  by_cases h200 : 200 < maxT - costSum (recencySel st.short_term_memory.reverse 0 maxT)
  · simp only [h200, if_true]
    rw [hV]
    dsimp only
    by_cases hE : st.conversation_summaries.isEmpty = true
    · simp [hE, renderSummary, renderSummarySrc, List.append_assoc]
    · by_cases h100 : 100 < maxT - costSum (recencySel st.short_term_memory.reverse 0 maxT)
      · by_cases hne : get_relevant_summaries st.conversation_summaries msg = ""
        · simp [hE, h100, hne, renderSummary, renderSummarySrc, List.append_assoc]
        · by_cases hfit : costSum (recencySel st.short_term_memory.reverse 0 maxT)
              + costSum (relevanceSel
                  (search_relevant_conversations st.memory_file msg 3)
                  st.short_term_memory
                  (costSum (recencySel st.short_term_memory.reverse 0 maxT)) maxT)
              + estimate_tokens (get_relevant_summaries st.conversation_summaries msg)
              ≤ maxT
          · simp [hE, h100, hne, hfit, renderSummary, renderSummarySrc, List.append_assoc]
          · simp [hE, h100, hne, hfit, renderSummary, renderSummarySrc, List.append_assoc]
      · simp [hE, h100, renderSummary, renderSummarySrc, List.append_assoc]
  · simp only [h200, if_false]
    by_cases hE : st.conversation_summaries.isEmpty = true
    · simp [hE, renderSummary, renderSummarySrc, List.append_assoc, costSum_nil]
    · by_cases h100 : 100 < maxT - costSum (recencySel st.short_term_memory.reverse 0 maxT)
      · by_cases hne : get_relevant_summaries st.conversation_summaries msg = ""
        · simp [hE, h100, hne, renderSummary, renderSummarySrc, List.append_assoc, costSum_nil]
        · by_cases hfit : costSum (recencySel st.short_term_memory.reverse 0 maxT)
              + estimate_tokens (get_relevant_summaries st.conversation_summaries msg)
              ≤ maxT
          · simp [hE, h100, hne, hfit, renderSummary, renderSummarySrc,
              List.append_assoc, costSum_nil]
          · simp [hE, h100, hne, hfit, renderSummary, renderSummarySrc,
              List.append_assoc, costSum_nil]
      · simp [hE, h100, renderSummary, renderSummarySrc, List.append_assoc, costSum_nil]

/-! ### C2: the composed context never exceeds the budget -/

theorem recencySel_budget (items : List Interaction) :
    ∀ (cur maxT : Nat), cur ≤ maxT → cur + costSum (recencySel items cur maxT) ≤ maxT := by
  induction items with
  | nil =>
    intro cur maxT h
    simpa [recencySel, costSum_nil] using h
  | cons i rest ih =>
    intro cur maxT h
    by_cases hc : maxT < cur + tokenCost i
    · simp only [recencySel, hc, if_true]
      simpa [costSum_nil] using h
    · simp only [recencySel, hc, if_false]
      rw [costSum_cons, ← Nat.add_assoc]
      exact ih (cur + tokenCost i) maxT (by omega)

theorem relevanceSel_budget (convs : List Interaction) :
    ∀ (stm : List Interaction) (cur maxT : Nat), cur ≤ maxT →
      cur + costSum (relevanceSel convs stm cur maxT) ≤ maxT := by
  induction convs with
  | nil =>
    intro stm cur maxT h
    simpa [relevanceSel, costSum_nil] using h
  | cons conv rest ih =>
    intro stm cur maxT h
    by_cases hskip : stm.any (fun c => c.timestamp == conv.timestamp) = true
    · simp only [relevanceSel, hskip, if_true]
      exact ih stm cur maxT h
    · by_cases hfit : cur + tokenCost conv ≤ maxT
      · simp only [relevanceSel, hskip, Bool.false_eq_true, if_false, hfit, if_true]
        rw [costSum_cons, ← Nat.add_assoc]
        exact ih stm (cur + tokenCost conv) maxT hfit
      · simp only [relevanceSel, hskip, Bool.false_eq_true, if_false, hfit, if_true]
        exact ih stm cur maxT h

theorem selSummaryText_fits (st : MemorySystem) (msg : String) (maxT : Nat) :
    ∀ s, selSummaryText st msg maxT = some s →
      costSum (selRecency st maxT) + costSum (selRelevant st msg maxT)
        + estimate_tokens s ≤ maxT := by
  intro s hs
  unfold selSummaryText at hs
  by_cases h1 : ¬ st.conversation_summaries.isEmpty = true
      ∧ 100 < maxT - costSum (selRecency st maxT)
  · rw [if_pos h1] at hs
    by_cases h2 : get_relevant_summaries st.conversation_summaries msg ≠ ""
        ∧ costSum (selRecency st maxT) + costSum (selRelevant st msg maxT)
            + estimate_tokens (get_relevant_summaries st.conversation_summaries msg) ≤ maxT
    · rw [if_pos h2] at hs
      cases hs
      exact h2.2
    · rw [if_neg h2] at hs
      cases hs
  · rw [if_neg h1] at hs
    cases hs

/-- C2: the total estimated token cost of every unit the composer includes —
stored `tokens_used` (or `len(text) // 4` when absent) for each recency and
relevance record, `len(summary_text) // 4` for the summary — never exceeds
the requested budget, and the returned messages are exactly the rendering of
those units. -/
theorem claim_C2 (st : MemorySystem) (current_message : String) (max_tokens : Nat) :
    costSum (selRecency st max_tokens)
        + costSum (selRelevant st current_message max_tokens)
        + summaryCost (selSummaryText st current_message max_tokens) ≤ max_tokens
    ∧ (get_intelligent_context st current_message max_tokens).1
        = renderSummary (selSummaryText st current_message max_tokens)
            ++ renderRecency (selRecency st max_tokens)
            ++ renderRelevant (selRelevant st current_message max_tokens) := by
  constructor
  · have h1 : costSum (selRecency st max_tokens) ≤ max_tokens := by
      have := recencySel_budget st.short_term_memory.reverse 0 max_tokens (Nat.zero_le _)
      simpa [selRecency] using this
    have h2 : costSum (selRecency st max_tokens)
        + costSum (selRelevant st current_message max_tokens) ≤ max_tokens := by
      unfold selRelevant
      by_cases hb : 200 < max_tokens - costSum (selRecency st max_tokens)
      · rw [if_pos hb]
        exact relevanceSel_budget _ _ _ _ h1
      · rw [if_neg hb]
        simpa [costSum_nil] using h1
    cases hsel : selSummaryText st current_message max_tokens with
    | none => simpa [summaryCost] using h2
    | some s =>
      have := selSummaryText_fits st current_message max_tokens s hsel
      simpa [summaryCost] using this
  · rw [context_eq]

/-! ### C3: ordering of the composed messages (code bug: role order) -/

/-- C3 evaluation at the failing input: with one windowed interaction
(user "hola", assistant "mundo amigo") and budget 6000, the composer returns
the assistant response BEFORE the user message — the recency pair is emitted
in reversed role order (`insert(0, user)` then `insert(0, assistant)`),
contradicting the claimed user-then-assistant order (which the relevance
phase, by contrast, does use). -/
theorem claim_C3 :
    (get_intelligent_context stPair "hola" 6000).1
      = [⟨"assistant", "mundo amigo"⟩, ⟨"user", "hola"⟩] := by decide

/-! ### C7: zero budget -/

/-- C7 counterexample: with budget 0 and a windowed interaction whose
combined text is shorter than 4 characters (estimated cost 0), the composer
still returns that interaction's two messages, not the empty list. -/
theorem claim_C7_cex : (get_intelligent_context stTiny "hola" 0).1 ≠ [] := by decide

/-- C7 (amended): with budget 0 the composer returns no messages, provided
every windowed interaction has a strictly positive estimated token cost
(records costing 0 tokens are included even under a zero budget). -/
theorem claim_C7 (st : MemorySystem) (current_message : String)
    (h : ∀ i ∈ st.short_term_memory, 0 < tokenCost i) :
    (get_intelligent_context st current_message 0).1 = [] := by
  have hr1 : recencyLoop st.short_term_memory.reverse [] [] 0 0 = ([], [], 0) := by
    cases hcase : st.short_term_memory.reverse with
    | nil => rfl
    | cons i rest =>
      have hpos : 0 < tokenCost i := by
        refine h i ?_
        rw [← List.mem_reverse, hcase]
        exact List.mem_cons_self _ _
      simp only [recencyLoop]
      rw [if_pos (by omega)]
  simp only [get_intelligent_context]
  rw [hr1]
  norm_num

theorem claim_C7_witness : (get_intelligent_context stPair "hola" 0).1 = [] :=
  claim_C7 stPair "hola" (by decide)

/-! ### C6: summarization grouping -/

theorem foldl_firstKeysStep_mem (K : List String) :
    ∀ (acc : List String) (x : String),
      x ∈ K.foldl firstKeysStep acc ↔ x ∈ acc ∨ x ∈ K := by
  induction K with
  | nil =>
    intro acc x
    simp
  | cons k K' ih =>
    intro acc x
    simp only [List.foldl_cons]
    rw [ih]
    unfold firstKeysStep
    by_cases hc : acc.contains k = true
    · rw [if_pos hc]
      have hk : k ∈ acc := List.mem_of_elem_eq_true hc
      constructor
      · rintro (h | h)
        · exact Or.inl h
        · exact Or.inr (List.mem_cons_of_mem k h)
      · rintro (h | h)
        · exact Or.inl h
        · rcases List.mem_cons.mp h with h' | h'
          · exact Or.inl (h' ▸ hk)
          · exact Or.inr h'
    · rw [if_neg hc]
      constructor
      · rintro (h | h)
        · rcases List.mem_append.mp h with h' | h'
          · exact Or.inl h'
          · rw [List.mem_singleton] at h'
            exact Or.inr (h' ▸ List.mem_cons_self k K')
        · exact Or.inr (List.mem_cons_of_mem k h)
      · rintro (h | h)
        · exact Or.inl (List.mem_append.mpr (Or.inl h))
        · rcases List.mem_cons.mp h with h' | h'
          · exact Or.inl (List.mem_append.mpr (Or.inr (List.mem_singleton.mpr h')))
          · exact Or.inr h'

theorem mem_firstKeys {K : List String} {x : String} : x ∈ firstKeys K ↔ x ∈ K := by
  unfold firstKeys
  rw [foldl_firstKeysStep_mem]
  simp

theorem contains_eq_false_of_not_mem {l : List String} {x : String} (h : x ∉ l) :
    l.contains x = false := by
  cases hb : l.contains x
  · rfl
  · exact absurd (List.mem_of_elem_eq_true hb) h

theorem foldl_firstKeysStep_nodup (K : List String) :
    ∀ (acc : List String), acc.Nodup → (K.foldl firstKeysStep acc).Nodup := by
  induction K with
  | nil =>
    intro acc h
    exact h
  | cons k K' ih =>
    intro acc h
    simp only [List.foldl_cons]
    refine ih _ ?_
    unfold firstKeysStep
    by_cases hc : acc.contains k = true
    · rw [if_pos hc]
      exact h
    · rw [if_neg hc]
      rw [List.nodup_append]
      refine ⟨h, List.nodup_singleton k, ?_⟩
      intro a ha hmem
      rw [List.mem_singleton] at hmem
      subst hmem
      have : acc.contains a = true := List.elem_eq_true_of_mem ha
      rw [this] at hc
      exact hc rfl

theorem nodup_firstKeys (K : List String) : (firstKeys K).Nodup :=
  foldl_firstKeysStep_nodup K [] List.nodup_nil

theorem firstKeys_append (K : List String) (k : String) :
    firstKeys (K ++ [k]) = firstKeysStep (firstKeys K) k := by
  unfold firstKeys
  rw [List.foldl_append]
  rfl

/-! Counter characterization -/

theorem countFold_map (ks : List String) :
    ∀ (g : String → Nat) (t : String), ks.Nodup → t ∈ ks →
      countFold (ks.map (fun k => (k, g k))) t
        = ks.map (fun k => (k, if k == t then g k + 1 else g k)) := by
  induction ks with
  | nil =>
    intro g t _ ht
    simp at ht
  | cons a ks' ih =>
    intro g t hnd ht
    simp only [List.map_cons, countFold]
    by_cases hat : (a == t) = true
    · rw [if_pos hat, if_pos hat]
      have hae : a = t := beq_iff_eq.mp hat
      congr 1
      apply List.map_congr_left
      intro k hk
      have hkt : (k == t) = false := by
        rw [beq_eq_false_iff_ne]
        intro hke
        subst hke
        subst hae
        exact (List.nodup_cons.mp hnd).1 hk
      rw [hkt]
      simp
    · rw [if_neg (by simpa using hat), if_neg (by simpa using hat)]
      congr 1
      refine ih g t (List.nodup_cons.mp hnd).2 ?_
      rcases List.mem_cons.mp ht with h' | h'
      · exact absurd h' (Ne.symm (by simpa using hat))
      · exact h'

theorem countFold_append (ks : List String) :
    ∀ (g : String → Nat) (t : String), t ∉ ks →
      countFold (ks.map (fun k => (k, g k))) t
        = ks.map (fun k => (k, g k)) ++ [(t, 1)] := by
  induction ks with
  | nil =>
    intro g t _
    rfl
  | cons a ks' ih =>
    intro g t ht
    have hat : (a == t) = false := by
      rw [beq_eq_false_iff_ne]
      intro h
      exact ht (h ▸ List.mem_cons_self a ks')
    simp only [List.map_cons, countFold]
    rw [if_neg (by simpa using hat)]
    rw [ih g t (fun h => ht (List.mem_cons_of_mem a h))]
    simp

theorem count_append_singleton {α : Type} [DecidableEq α] (l : List α) (a b : α) :
    (l ++ [b]).count a = l.count a + (if a = b then 1 else 0) := by
  rw [List.count_append]
  by_cases h : a = b
  · subst h
    simp [List.count_singleton]
  · rw [if_neg h]
    simp [List.count_singleton', h]

theorem counterList_snoc (P : List String) (t : String) :
    (firstKeys (P ++ [t])).map (fun u => (u, (P ++ [t]).count u))
      = countFold ((firstKeys P).map (fun u => (u, P.count u))) t := by
  rw [firstKeys_append]
  unfold firstKeysStep
  by_cases hc : (firstKeys P).contains t = true
  · rw [if_pos hc]
    have htm : t ∈ firstKeys P := List.mem_of_elem_eq_true hc
    rw [countFold_map (firstKeys P) (fun u => P.count u) t (nodup_firstKeys P) htm]
    apply List.map_congr_left
    intro k _
    rw [count_append_singleton]
    by_cases hkt : (k == t) = true
    · have hkeq : k = t := beq_iff_eq.mp hkt
      simp [hkt, hkeq]
    · have hkne : ¬ k = t := by simpa using hkt
      simp [hkt, hkne]
  · rw [if_neg hc]
    have htm : t ∉ firstKeys P := by
      intro h
      exact hc (List.elem_eq_true_of_mem h)
    rw [List.map_append, countFold_append (firstKeys P) (fun u => P.count u) t htm]
    congr 1
    · apply List.map_congr_left
      intro k hk
      rw [count_append_singleton]
      have : ¬ k = t := by
        intro h
        exact htm (h ▸ hk)
      rw [if_neg this, Nat.add_zero]
    · simp only [List.map_cons, List.map_nil]
      rw [count_append_singleton, if_pos rfl]
      have : P.count t = 0 := by
        rw [List.count_eq_zero]
        intro h
        exact htm (mem_firstKeys.mpr h)
      rw [this]

theorem counterList_spec (terms : List String) :
    counterList terms = (firstKeys terms).map (fun t => (t, terms.count t)) := by
  have main : ∀ (Q P : List String),
      (P.foldl countFold ((firstKeys Q).map (fun u => (u, Q.count u))))
        = (firstKeys (Q ++ P)).map (fun u => (u, (Q ++ P).count u)) := by
    intro Q P
    induction P generalizing Q with
    | nil => simp
    | cons t P' ih =>
      simp only [List.foldl_cons]
      rw [← counterList_snoc Q t, ih (Q ++ [t])]
      simp [List.append_assoc]
  have h0 := main [] terms
  simp only [List.nil_append] at h0
  rw [← h0]
  rfl

/-! Dict grouping characterization -/

theorem insertGroup_map (ks : List String) :
    ∀ (g : String → List Interaction) (k : String) (c : Interaction),
      ks.Nodup → k ∈ ks →
      insertGroup (ks.map (fun u => (u, g u))) k c
        = ks.map (fun u => (u, if u == k then g u ++ [c] else g u)) := by
  induction ks with
  | nil =>
    intro g k c _ hk
    simp at hk
  | cons a ks' ih =>
    intro g k c hnd hk
    simp only [List.map_cons, insertGroup]
    by_cases hak : (a == k) = true
    · rw [if_pos hak]
      have hae : a = k := beq_iff_eq.mp hak
      rw [if_pos hak]
      congr 1
      apply List.map_congr_left
      intro u hu
      have huk : (u == k) = false := by
        rw [beq_eq_false_iff_ne]
        intro hue
        subst hue
        subst hae
        exact (List.nodup_cons.mp hnd).1 hu
      rw [huk]
      simp
    · rw [if_neg (by simpa using hak), if_neg (by simpa using hak)]
      congr 1
      refine ih g k c (List.nodup_cons.mp hnd).2 ?_
      rcases List.mem_cons.mp hk with h' | h'
      · exact absurd h' (Ne.symm (by simpa using hak))
      · exact h'

theorem insertGroup_append (ks : List String) :
    ∀ (g : String → List Interaction) (k : String) (c : Interaction), k ∉ ks →
      insertGroup (ks.map (fun u => (u, g u))) k c
        = ks.map (fun u => (u, g u)) ++ [(k, [c])] := by
  induction ks with
  | nil =>
    intro g k c _
    rfl
  | cons a ks' ih =>
    intro g k c hk
    have hak : (a == k) = false := by
      rw [beq_eq_false_iff_ne]
      intro h
      exact hk (h ▸ List.mem_cons_self a ks')
    simp only [List.map_cons, insertGroup]
    rw [if_neg (by simpa using hak)]
    rw [ih g k c (fun h => hk (List.mem_cons_of_mem a h))]
    simp

theorem bucketOf_append (P : List Interaction) (c : Interaction) (k : String) :
    bucketOf (P ++ [c]) k
      = bucketOf P k ++ (if code_week_key c.timestamp == some k then [c] else []) := by
  unfold bucketOf
  rw [List.filter_append]
  congr 1
  cases hp : (code_week_key c.timestamp == some k) <;> simp [List.filter, hp]

theorem groupStep_snoc (P : List Interaction) (c : Interaction) :
    (firstKeys ((P ++ [c]).filterMap (fun x => code_week_key x.timestamp))).map
        (fun k => (k, bucketOf (P ++ [c]) k))
      = groupStep ((firstKeys (P.filterMap (fun x => code_week_key x.timestamp))).map
          (fun k => (k, bucketOf P k))) c := by
  cases hk : code_week_key c.timestamp with
  | none =>
    simp only [groupStep, hk]
    have hkeys : (P ++ [c]).filterMap (fun x => code_week_key x.timestamp)
        = P.filterMap (fun x => code_week_key x.timestamp) := by
      rw [List.filterMap_append]
      simp [List.filterMap_cons, hk]
    rw [hkeys]
    apply List.map_congr_left
    intro u _
    rw [bucketOf_append]
    have : (code_week_key c.timestamp == some u) = false := by
      rw [hk]
      rfl
    rw [this]
    simp
  | some k0 =>
    have hkeys : (P ++ [c]).filterMap (fun x => code_week_key x.timestamp)
        = P.filterMap (fun x => code_week_key x.timestamp) ++ [k0] := by
      rw [List.filterMap_append]
      simp [List.filterMap_cons, hk]
    rw [hkeys, firstKeys_append]
    simp only [groupStep, hk]
    unfold firstKeysStep
    by_cases hmem : (firstKeys (P.filterMap (fun x => code_week_key x.timestamp))).contains k0
        = true
    · rw [if_pos hmem]
      have hk0 : k0 ∈ firstKeys (P.filterMap (fun x => code_week_key x.timestamp)) :=
        List.mem_of_elem_eq_true hmem
      rw [insertGroup_map _ _ k0 c (nodup_firstKeys _) hk0]
      apply List.map_congr_left
      intro u _
      rw [bucketOf_append, hk]
      by_cases huk : (u == k0) = true
      · have hue : u = k0 := beq_iff_eq.mp huk
        have hbeq : ((some k0 : Option String) == some u) = true := by
          subst hue
          exact beq_self_eq_true _
        rw [hbeq, huk]
        simp
      · have hue : ¬ u = k0 := by simpa using huk
        have hbeq : ((some k0 : Option String) == some u) = false := by
          simp only [beq_eq_false_iff_ne, ne_eq, Option.some.injEq]
          exact fun h => hue h.symm
        rw [hbeq]
        simp [huk]
    · rw [if_neg hmem]
      have hk0 : k0 ∉ firstKeys (P.filterMap (fun x => code_week_key x.timestamp)) := by
        intro h
        exact hmem (List.elem_eq_true_of_mem h)
      rw [List.map_append, insertGroup_append _ _ k0 c hk0]
      congr 1
      · apply List.map_congr_left
        intro u hu
        rw [bucketOf_append, hk]
        have : ((some k0 : Option String) == some u) = false := by
          simp only [beq_eq_false_iff_ne, ne_eq, Option.some.injEq]
          intro h
          exact hk0 (h ▸ hu)
        rw [this]
        simp
      · simp only [List.map_cons, List.map_nil]
        have hempty : bucketOf P k0 = [] := by
          unfold bucketOf
          rw [List.filter_eq_nil_iff]
          intro a ha hpa
          have : code_week_key a.timestamp = some k0 := by
            have := beq_iff_eq.mp hpa
            exact this
          refine hk0 (mem_firstKeys.mpr ?_)
          exact List.mem_filterMap.mpr ⟨a, ha, this⟩
        rw [bucketOf_append, hempty, hk]
        rw [beq_self_eq_true (some k0)]
        simp

theorem weekly_groups_spec (conversations : List Interaction) :
    weekly_groups conversations
      = (firstKeys (conversations.filterMap (fun x => code_week_key x.timestamp))).map
          (fun k => (k, bucketOf conversations k)) := by
  have main : ∀ (convs P : List Interaction),
      convs.foldl groupStep
          ((firstKeys (P.filterMap (fun x => code_week_key x.timestamp))).map
            (fun k => (k, bucketOf P k)))
        = (firstKeys ((P ++ convs).filterMap (fun x => code_week_key x.timestamp))).map
            (fun k => (k, bucketOf (P ++ convs) k)) := by
    intro convs
    induction convs with
    | nil =>
      intro P
      simp
    | cons c rest ih =>
      intro P
      simp only [List.foldl_cons]
      rw [← groupStep_snoc P c, ih (P ++ [c])]
      simp [List.append_assoc]
  have h0 := main conversations []
  simp only [List.nil_append] at h0
  rw [← h0]
  rfl

theorem filterMap_if_filter {α β : Type} (p : α → Prop) [DecidablePred p] (f : α → β)
    (l : List α) :
    l.filterMap (fun a => if p a then some (f a) else none)
      = (l.filter (fun a => decide (p a))).map f := by
  induction l with
  | nil => rfl
  | cons a l' ih =>
    by_cases hp : p a <;> simp [List.filterMap_cons, List.filter_cons, hp, ih]

theorem create_weekly_summary_eq (week : String) (conversations : List Interaction) :
    create_weekly_summary week conversations = ref_summary week conversations := by
  simp only [create_weekly_summary, ref_summary, most_common]
  rw [counterList_spec]
  simp [List.take_take]

theorem group_eq_ref (cands : List Interaction) :
    group_conversations_by_time cands = ref_weekly_summaries cands := by
  unfold group_conversations_by_time ref_weekly_summaries
  rw [weekly_groups_spec, List.filter_map, List.map_map,
    filterMap_if_filter (fun k => 5 ≤ (bucketOf cands k).length)
      (fun k => ref_summary k (bucketOf cands k)) _]
  apply List.map_congr_left
  intro k _
  exact create_weekly_summary_eq k (bucketOf cands k)

/-- C6 counterexample: in `hist20` the 10 summarization candidates contain a
5-record bucket for ISO calendar week 2025-W1 (3 records dated 2024-12-30
plus 2 dated 2025-01-02) and a 5-record bucket for 2025-W20, so the claim's
ISO-calendar-week grouping demands two summaries; the code keys the first
five records as "2024-W1" (3 records) and "2025-W1" (2 records) — calendar
year with ISO week number — so neither reaches 5 and only one summary is
produced. -/
theorem claim_C6_cex :
    (create_conversation_summary hist20).length = 1
    ∧ (spec_weekly_summaries
        (hist20.take (hist20.length - SHORT_TERM_MEMORY_LIMIT))).length = 2 := by
  constructor
  · decide
  · decide

/-- C6 (amended): summarization takes the candidate set
`history[:-SHORT_TERM_MEMORY_LIMIT]`; with fewer than 10 candidates it
produces nothing, and otherwise it groups the candidates by the pair
(calendar year, ISO week number) of their timestamp — not by ISO calendar
week, from which it differs around new year — and produces, per distinct key
in first-occurrence order, exactly one summary when the bucket holds at
least 5 records and none otherwise; each summary's `main_topics` are the at
most 10 most frequent extracted terms of the bucket's concatenated text
(ties in first-occurrence order) and its `total_tokens` is the sum of the
bucket's `tokens_used`. -/
theorem claim_C6 (history : List Interaction) :
    create_conversation_summary history
      = (if (history.take (history.length - SHORT_TERM_MEMORY_LIMIT)).length < 10 then []
         else ref_weekly_summaries
           (history.take (history.length - SHORT_TERM_MEMORY_LIMIT))) := by
  unfold create_conversation_summary
  by_cases h : (history.take (history.length - SHORT_TERM_MEMORY_LIMIT)).length < 10
  · rw [if_pos h, if_pos h]
  · rw [if_neg h, if_neg h]
    exact group_eq_ref _

end AgentMemory
